import Mathlib

set_option maxRecDepth 4096

/-!
Formal model of the resource-allocation core of the `ai_project_manager`
repository (`src/backend/multi_agent_system.py`): the entity model, the
per-person per-week bandwidth ledger, the candidate scorers, and the two
allocation loops (`PortfolioManagerAgent.allocate_resources` and
`DeepDiveAgent.allocate_tasks`), together with theorems settling the
specification claims.  Monetary amounts, hours and scores are modelled as
rationals, weeks and bandwidth percentages as naturals.  Python dictionaries
keyed by week are modelled as association lists; dictionaries keyed by member
name are modelled as total functions from `String` that carry the dictionary's
initial value outside the roster (the loops only ever read them at roster
names).
-/

namespace MAS

/-- Python `int(q)` truncates toward zero. -/
def pyInt (q : ℚ) : Int :=
  if 0 ≤ q then q.floor else -((-q).floor)

/-- Task duration in weeks: `max(1, int(task.estimated_hours / 20))` with the
fixed `hours_per_week = 20` constant used by both allocators. -/
def durationOf (hours : ℚ) : Nat :=
  (max 1 (pyInt (hours / 20))).toNat

/-- Reading a Python dict keyed by week: `d.get(week, 0)`. -/
def dictGet : List (Nat × Nat) → Nat → Nat
  | [], _ => 0
  | (k, v) :: rest, w => if k = w then v else dictGet rest w

/-- Writing a Python dict keyed by week: `d[week] = v` (replace the binding if
present, else add it). -/
def dictSet : List (Nat × Nat) → Nat → Nat → List (Nat × Nat)
  | [], w, v => [(w, v)]
  | (k, x) :: rest, w, v => if k = w then (k, v) :: rest else (k, x) :: dictSet rest w v

/-- Sum of a week dict's values, as in Python `sum(d.values())`. -/
def dictValuesSum (d : List (Nat × Nat)) : Nat :=
  (d.map (fun kv => kv.2)).sum

/-- The commit loop `for week in range(s, s + dur): d[week] = d.get(week, 0) + bw`. -/
def commitWeeks : List (Nat × Nat) → Nat → Nat → Nat → List (Nat × Nat)
  | d, _, 0, _ => d
  | d, s, dur + 1, bw => commitWeeks (dictSet d s (dictGet d s + bw)) (s + 1) dur bw

/-- The capacity check `all(d.get(week, 0) + bw <= cap for week in range(s, s + dur))`. -/
def canFit : List (Nat × Nat) → Nat → Nat → Nat → Nat → Bool
  | _, _, 0, _, _ => true
  | d, s, dur + 1, bw, cap => decide (dictGet d s + bw ≤ cap) && canFit d (s + 1) dur bw cap

/-- Pointwise update of a `String`-keyed map. -/
def strUpdate (f : String → α) (k : String) (v : α) : String → α :=
  fun n => if n = k then v else f n

/-- Stable insertion used to model Python's stable `list.sort`: the new element
is placed before the first element `b` such that `before a b`, hence after every
element it does not strictly precede (equal elements keep their input order). -/
def insertBefore (before : α → α → Bool) (a : α) : List α → List α
  | [] => [a]
  | b :: rest => if before a b then a :: b :: rest else b :: insertBefore before a rest

/-- Stable sort by repeated insertion; with a strict comparison `before` it
computes the unique stable sort, which is what Python's Timsort returns. -/
def stableSortBy (before : α → α → Bool) (xs : List α) : List α :=
  xs.foldl (fun acc a => insertBefore before a acc) []

/-- Python `list.sort(reverse=True, key=key)`: stable descending sort by key. -/
def sortDescBy (key : α → ℚ) (xs : List α) : List α :=
  stableSortBy (fun a b => decide (key b < key a)) xs

/-! ## Entity model (`PART 1: DATA MODELS`) -/

/-- Mirror of the `TeamMember` pydantic model. -/
structure TeamMember where
  name : String
  profile : String := ""
  skills : List String
  total_bandwidth_percent : Nat := 100
  max_concurrent_tasks : Nat := 2
  hourly_rate : ℚ := 50
  location : String := "Remote"
  deriving DecidableEq, Repr

/-- Mirror of the `Project` pydantic model.  Its `id` also has a uuid4-derived
default, but projects are constructed by the caller before a run (the
allocators never construct a `Project`), so identical project-list inputs
carry identical ids; the field is modelled as an opaque caller-chosen string. -/
structure Project where
  id : String := ""
  name : String
  description : String := ""
  priority : Int := 3
  budget : ℚ := 100000
  required_skills : List String
  estimated_duration_weeks : Nat := 8
  client : String := "Internal"
  deadline : Option String := none
  deriving DecidableEq, Repr

/-- Mirror of the `Task` pydantic model.  The source's `id` field defaults to
`str(uuid.uuid4())[:8]`, a fresh random draw at every construction; the model
therefore has no default for `id` — every construction site supplies the drawn
id explicitly, and `Task` objects created inside `allocate_resources` draw
their ids from an explicit id-supply parameter of the run. -/
structure Task where
  id : String
  task_name : String
  description : String := ""
  required_skills : List String
  estimated_hours : ℚ
  phase : String
  dependencies : List String := []
  deriving DecidableEq, Repr

/-- Mirror of the `ResourceAllocation` pydantic model.  Note that the record
has exactly these seven fields: there is no overallocation flag. -/
structure ResourceAllocation where
  project : Project
  task : Task
  team_member : TeamMember
  start_week : Nat
  end_week : Nat
  allocated_bandwidth : Nat
  estimated_cost : ℚ
  deriving DecidableEq, Repr

/-! ## Candidate scorers -/

/-- `PortfolioManagerAgent.match_skills`: `len(set(required) & set(member.skills))
/ len(required_skills)`, with default `0.5` for an empty required list.  The
set intersection size is the number of distinct required skills the member has. -/
def match_skills (required_skills : List String) (member : TeamMember) : ℚ :=
  if required_skills = [] then 1/2
  else ((required_skills.dedup.filter (fun s => decide (s ∈ member.skills))).length : ℚ) /
    (required_skills.length : ℚ)

/-- The inline skill score of `DeepDiveAgent.allocate_tasks`: same formula, but
the empty-list default is `0.3`. -/
def dd_match_skills (required_skills : List String) (member : TeamMember) : ℚ :=
  if required_skills = [] then 3/10
  else ((required_skills.dedup.filter (fun s => decide (s ∈ member.skills))).length : ℚ) /
    (required_skills.length : ℚ)

/-- Workload score `1.0 / (1.0 + total_workload / 100.0)`. -/
def workloadScoreOf (total_workload : Nat) : ℚ :=
  1 / (1 + (total_workload : ℚ) / 100)

/-- Consecutive-penalty score:
`0.5 if consecutive_count >= 3 else 1.0 - (consecutive_count * 0.15)`. -/
def consecutiveScoreOf (consecutive_count : Nat) : ℚ :=
  if 3 ≤ consecutive_count then 1/2 else 1 - (consecutive_count : ℚ) * (3/20)

/-! ## Ledger state shared by both allocation loops -/

/-- The mutable state both loops thread through each assignment: the per-name
week ledger `bandwidth_tracker`, the per-name cursor `member_earliest_week`,
and the list of allocations emitted so far.  Each allocation is paired with a
ghost boolean recording whether it was produced by the fallback
(`Overallocated`) branch; the boolean mirrors which branch of the source
executed (observable there only as a console message) and is stripped from the
public result. -/
structure LedgerState where
  bandwidth_tracker : String → List (Nat × Nat)
  member_earliest_week : String → Nat
  allocations : List (ResourceAllocation × Bool)

/-- The assignment commit common to the normal and fallback branches of both
loops: write the bandwidth into the ledger for every covered week, advance the
member's earliest-free-week cursor, and append the emitted allocation. -/
def coreCommit (st : LedgerState) (project : Project) (task : Task) (member : TeamMember)
    (start_week duration_weeks bandwidth_needed : Nat) (forced : Bool) : LedgerState :=
  { bandwidth_tracker := strUpdate st.bandwidth_tracker member.name
      (commitWeeks (st.bandwidth_tracker member.name) start_week duration_weeks bandwidth_needed),
    member_earliest_week := strUpdate st.member_earliest_week member.name
      (start_week + duration_weeks),
    allocations := st.allocations ++
      [({ project := project, task := task, team_member := member,
          start_week := start_week, end_week := start_week + duration_weeks,
          allocated_bandwidth := bandwidth_needed,
          estimated_cost := task.estimated_hours * member.hourly_rate }, forced)] }

def initLedger : LedgerState :=
  { bandwidth_tracker := fun _ => [], member_earliest_week := fun _ => 0, allocations := [] }

/-! ## Portfolio manager (`PortfolioManagerAgent.allocate_resources`) -/

/-- The candidate dictionary built for each (task, member) pair in the
portfolio loop. -/
structure Candidate where
  combined_score : ℚ
  skill_score : ℚ
  workload_score : ℚ
  consecutive_score : ℚ
  consecutive_count : Nat
  member : TeamMember

/-- Portfolio loop state: ledger plus the consecutive-assignment counters and
the most recently assigned member. -/
structure PortfolioState where
  core : LedgerState
  consecutive_tasks : String → Nat
  last_assigned_member : Option String

/-- The candidate list built in roster order with the 30/50/20 weighted score. -/
def portfolioCandidates (team : List TeamMember) (st : PortfolioState) (task : Task) :
    List Candidate :=
  team.map fun member =>
    let skill_score := match_skills task.required_skills member
    let workload_score := workloadScoreOf (dictValuesSum (st.core.bandwidth_tracker member.name))
    let consecutive_count := st.consecutive_tasks member.name
    let consecutive_score := consecutiveScoreOf consecutive_count
    { combined_score := (3/10) * skill_score + (1/2) * workload_score +
        (1/5) * consecutive_score,
      skill_score := skill_score, workload_score := workload_score,
      consecutive_score := consecutive_score, consecutive_count := consecutive_count,
      member := member }

/-- The consecutive-counter update after an assignment to `name`.  Note the
source's `if last_assigned_member:` truthiness test: a previous member whose
name is the empty string is falsy, so their streak is not reset. -/
def updateConsecutive (consec : String → Nat) (last : Option String) (name : String) :
    (String → Nat) × Option String :=
  if last = some name then (strUpdate consec name (consec name + 1), some name)
  else
    let consec1 := match last with
      | some l => if l = "" then consec else strUpdate consec l 0
      | none => consec
    (strUpdate consec1 name 1, some name)

/-- The assignment commit of the portfolio loop (the normal and fallback
branches of the source are line-for-line identical apart from the capacity
check): commit the member at their earliest-free-week and update the
consecutive counters. -/
def portfolioAssign (st : PortfolioState) (pt : Project × Task) (member : TeamMember)
    (forced : Bool) : PortfolioState :=
  let start_week := st.core.member_earliest_week member.name
  let cl := updateConsecutive st.consecutive_tasks st.last_assigned_member member.name
  { core := coreCommit st.core pt.1 pt.2 member start_week (durationOf pt.2.estimated_hours)
      50 forced,
    consecutive_tasks := cl.1, last_assigned_member := cl.2 }

/-- One iteration of the portfolio task loop: score and rank every member,
assign to the first ranked candidate whose capacity check passes; if none
passes and the candidate list is non-empty, force-assign to the top-ranked
candidate (the `Overallocated` branch, `forced = true`). -/
def portfolioStep (team : List TeamMember) (st : PortfolioState) (pt : Project × Task) :
    PortfolioState :=
  match (sortDescBy Candidate.combined_score (portfolioCandidates team st pt.2)).find?
      (fun c =>
        canFit (st.core.bandwidth_tracker c.member.name)
          (st.core.member_earliest_week c.member.name) (durationOf pt.2.estimated_hours) 50
          c.member.total_bandwidth_percent) with
  | some c => portfolioAssign st pt c.member false
  | none =>
      match sortDescBy Candidate.combined_score (portfolioCandidates team st pt.2) with
      | [] => st
      | c :: _ => portfolioAssign st pt c.member true

/-- The fixed phase order. -/
def phaseOrder : List String := ["Planning", "Design", "Development", "Testing", "Deployment"]

/-- `PortfolioManagerAgent._create_portfolio_tasks`: one synthetic task per
phase, requiring the first two of the project's required skills, with
`estimated_hours = estimated_duration_weeks * 8`.  Each constructed `Task`
draws a fresh uuid4-derived id in the source; here the k-th task of this
project draws `ids k` from the given id supply. -/
def create_portfolio_tasks (ids : Nat → String) (project : Project) : List Task :=
  phaseOrder.enum.map fun kp =>
    { id := ids kp.1,
      task_name := kp.2 ++ " - " ++ project.name,
      description := kp.2 ++ " phase for " ++ project.name,
      required_skills := project.required_skills.take 2,
      estimated_hours := ((project.estimated_duration_weeks * 8 : Nat) : ℚ),
      phase := kp.2 }

/-- Projects are processed in ascending priority (Python's stable `sorted`). -/
def sortProjects (projects : List Project) : List Project :=
  stableSortBy (fun a b => decide (a.priority < b.priority)) projects

/-- The flattened `for project in self.projects: for task in tasks:` stream.
Each project creates exactly five tasks, so the i-th processed project draws
the ids `5*i .. 5*i+4` of the run's id supply. -/
def portfolioTaskStream (ids : Nat → String) (projects : List Project) :
    List (Project × Task) :=
  (sortProjects projects).enum.flatMap fun ip =>
    (create_portfolio_tasks (fun k => ids (5 * ip.1 + k)) ip.2).map fun t => (ip.2, t)

def portfolioInit : PortfolioState :=
  { core := initLedger, consecutive_tasks := fun _ => 0, last_assigned_member := none }

/-- The full portfolio allocation run, with instrumented state.  The `ids`
parameter is the sequence of uuid4-derived ids drawn by the `Task`
constructions the run performs internally: it is part of the run's random
environment, not of its inputs. -/
def portfolioRunAux (ids : Nat → String) (team : List TeamMember)
    (projects : List Project) : PortfolioState :=
  (portfolioTaskStream ids projects).foldl (portfolioStep team) portfolioInit

/-- All intermediate states of the portfolio run, one per processed task
(the head is the initial state, the last the final state). -/
def portfolioStates (ids : Nat → String) (team : List TeamMember)
    (projects : List Project) : List PortfolioState :=
  (portfolioTaskStream ids projects).scanl (portfolioStep team) portfolioInit

/-- Intermediate state after `i` tasks of the portfolio run. -/
def stateAt (ids : Nat → String) (team : List TeamMember) (projects : List Project)
    (i : Nat) : PortfolioState :=
  (portfolioStates ids team projects).getD i portfolioInit

/-- Public result of `PortfolioManagerAgent.allocate_resources`: the list of
`ResourceAllocation` records, in emission order, for the given draw of
internal task ids. -/
def allocate_resources (ids : Nat → String) (team : List TeamMember)
    (projects : List Project) : List ResourceAllocation :=
  (portfolioRunAux ids team projects).core.allocations.map Prod.fst

/-- Strip the uuid-drawn id from a task (used to state run determinism up to
the internal id draws). -/
def stripTaskId (t : Task) : Task := { t with id := "" }

/-- Strip the uuid-drawn task id from an emitted allocation. -/
def eraseTaskId (a : ResourceAllocation) : ResourceAllocation :=
  { a with task := stripTaskId a.task }

/-- Two portfolio states that agree everywhere except possibly in the
uuid-drawn ids of the tasks embedded in their emitted allocations. -/
def EqUpToTaskIds (st1 st2 : PortfolioState) : Prop :=
  st1.core.bandwidth_tracker = st2.core.bandwidth_tracker ∧
  st1.core.member_earliest_week = st2.core.member_earliest_week ∧
  st1.consecutive_tasks = st2.consecutive_tasks ∧
  st1.last_assigned_member = st2.last_assigned_member ∧
  st1.core.allocations.map (fun af => (eraseTaskId af.1, af.2)) =
    st2.core.allocations.map (fun af => (eraseTaskId af.1, af.2))

/-! ## Deep dive agent (`DeepDiveAgent.allocate_tasks`) -/

/-- The candidate tuple `(combined_score, match_score, workload_score, member)`
built for each (task, member) pair in the deep-dive loop, with the 60/40
weighting and no consecutive term. -/
def ddCandidates (team : List TeamMember) (core : LedgerState) (task : Task) :
    List (ℚ × ℚ × ℚ × TeamMember) :=
  team.map fun member =>
    let match_score := dd_match_skills task.required_skills member
    let workload_score := workloadScoreOf (dictValuesSum (core.bandwidth_tracker member.name))
    ((3/5) * match_score + (2/5) * workload_score, match_score, workload_score, member)

/-- The assignment commit of the deep-dive loop (again identical in the normal
and fallback branches): start week is
`max(phase_start_week, member_earliest_week[member.name])`, and the running
`phase_max_end_week` (second component) is raised to the new end week. -/
def ddAssign (project : Project) (phase_start_week : Nat) (st : LedgerState × Nat)
    (task : Task) (member : TeamMember) (forced : Bool) : LedgerState × Nat :=
  let start_week := Nat.max phase_start_week (st.1.member_earliest_week member.name)
  Prod.mk
    (coreCommit st.1 project task member start_week (durationOf task.estimated_hours) 50 forced)
    (Nat.max st.2 (start_week + durationOf task.estimated_hours))

/-- One iteration of the deep-dive inner task loop. -/
def ddTaskStep (team : List TeamMember) (project : Project) (phase_start_week : Nat)
    (st : LedgerState × Nat) (task : Task) : LedgerState × Nat :=
  let ranked := sortDescBy (fun c => c.1) (ddCandidates team st.1 task)
  match ranked.find? (fun c =>
      canFit (st.1.bandwidth_tracker c.2.2.2.name)
        (Nat.max phase_start_week (st.1.member_earliest_week c.2.2.2.name))
        (durationOf task.estimated_hours) 50 c.2.2.2.total_bandwidth_percent) with
  | some c => ddAssign project phase_start_week st task c.2.2.2 false
  | none =>
      match ranked with
      | [] => st
      | c :: _ => ddAssign project phase_start_week st task c.2.2.2 true

/-- Deep-dive outer state: the ledger plus the `phase_end_weeks` dictionary
(`.get(prev, 0)` is modelled by a total function defaulting to 0; each phase
key is written at most once). -/
structure DeepDiveState where
  core : LedgerState
  phase_end_weeks : String → Nat

/-- `phase_start_week`: 0 for the first phase, else the recorded end of the
positionally previous phase (0 if that phase was empty and hence skipped). -/
def phaseStartOf (prev : Option String) (st : DeepDiveState) : Nat :=
  match prev with
  | none => 0
  | some pp => st.phase_end_weeks pp

/-- The cursor-raising loop at the start of a non-empty phase: every roster
member's earliest-free-week is raised to at least the phase start. -/
def raiseCursors (team : List TeamMember) (ps : Nat) (st : LedgerState) : LedgerState :=
  { st with member_earliest_week := fun n =>
      if n ∈ team.map (fun m => m.name) then Nat.max (st.member_earliest_week n) ps
      else st.member_earliest_week n }

/-- Processing of one phase: skipped entirely when its task bucket is empty
(the source's `continue`); otherwise every member's cursor is raised to at
least the phase start, the bucket's tasks are allocated in order, and the
final `phase_max_end_week` is recorded for this phase. -/
def ddPhaseStep (team : List TeamMember) (project : Project) (buckets : String → List Task)
    (prev : Option String) (phase : String) (st : DeepDiveState) : DeepDiveState :=
  if buckets phase = [] then st
  else
    { core := ((buckets phase).foldl (ddTaskStep team project (phaseStartOf prev st))
        (raiseCursors team (phaseStartOf prev st) st.core, phaseStartOf prev st)).1,
      phase_end_weeks := strUpdate st.phase_end_weeks phase
        ((buckets phase).foldl (ddTaskStep team project (phaseStartOf prev st))
          (raiseCursors team (phaseStartOf prev st) st.core, phaseStartOf prev st)).2 }

/-- The phase loop with the positional previous phase threaded through. -/
def ddPhases (team : List TeamMember) (project : Project) (buckets : String → List Task) :
    List String → Option String → DeepDiveState → DeepDiveState
  | [], _, st => st
  | ph :: rest, prev, st =>
      ddPhases team project buckets rest (some ph) (ddPhaseStep team project buckets prev ph st)

/-- The full deep-dive allocation run, with instrumented state.  Tasks are
bucketed by phase; a task whose phase is not one of the five known phases
lands in no bucket and is never processed. -/
def allocate_tasks_aux (team : List TeamMember) (project : Project) (tasks : List Task) :
    DeepDiveState :=
  ddPhases team project (fun ph => tasks.filter (fun t => decide (t.phase = ph)))
    phaseOrder none { core := initLedger, phase_end_weeks := fun _ => 0 }

/-- Public result of `DeepDiveAgent.allocate_tasks`. -/
def allocate_tasks (team : List TeamMember) (project : Project) (tasks : List Task) :
    List ResourceAllocation :=
  (allocate_tasks_aux team project tasks).core.allocations.map Prod.fst

/-! ## Output-level observations -/

/-- Total bandwidth committed to `name` during `week` by an allocation list:
the sum of `allocated_bandwidth` over the allocations of that member whose
half-open week interval covers the week. -/
def committedAt (allocs : List ResourceAllocation) (name : String) (week : Nat) : Nat :=
  (allocs.map fun a =>
    if a.team_member.name = name ∧ a.start_week ≤ week ∧ week < a.end_week
    then a.allocated_bandwidth else 0).sum

/-- Whether an emitted `ResourceAllocation` record carries an overallocation
marker.  The source record (multi_agent_system.py, lines 50-58) has exactly the
seven fields project/task/team_member/start_week/end_week/allocated_bandwidth/
estimated_cost and no boolean or penalty field, so no emitted record is marked. -/
def markedOverallocated (_a : ResourceAllocation) : Bool := false

/-- No fallback-branch allocation of the instrumented output covers the given
member name and week. -/
def noForcedCover (out : List (ResourceAllocation × Bool)) (name : String) (week : Nat) : Prop :=
  ∀ af ∈ out, af.2 = true → af.1.team_member.name = name →
    ¬(af.1.start_week ≤ week ∧ week < af.1.end_week)

/-- The ledger/output invariant maintained by both allocation loops: the
ledger entry of every name and week equals the bandwidth committed by the
emitted allocations, and wherever no fallback-branch allocation covers a
roster member's week, the committed bandwidth respects that member's capacity. -/
def LedgerInv (team : List TeamMember) (st : LedgerState) : Prop :=
  (∀ n w, dictGet (st.bandwidth_tracker n) w = committedAt (st.allocations.map Prod.fst) n w) ∧
  (∀ m ∈ team, ∀ w, noForcedCover st.allocations m.name w →
    dictGet (st.bandwidth_tracker m.name) w ≤ m.total_bandwidth_percent)

/-- The consecutive-counter invariant of the portfolio loop: any name with a
nonzero streak counter is the most recently assigned member, and the recorded
last-assigned name belongs to the roster. -/
def ConsecInv (team : List TeamMember) (st : PortfolioState) : Prop :=
  (∀ n, st.consecutive_tasks n ≠ 0 → st.last_assigned_member = some n) ∧
  (∀ l, st.last_assigned_member = some l → l ∈ team.map (fun m => m.name))

/-! ## Concrete fixtures used by the claim theorems -/

/-- A fixed blank id draw, used for concrete runs whose statements never
inspect the drawn task ids. -/
def drawBlank : Nat → String := fun _ => ""

/-- One possible sequence of uuid4-derived id draws. -/
def drawA : Nat → String := fun _ => "a"

/-- A different possible sequence of uuid4-derived id draws. -/
def drawB : Nat → String := fun _ => "b"

/-- Member A of the spec's end-to-end scenario: python skills, full capacity. -/
def memberA : TeamMember := { name := "A", skills := ["python"], total_bandwidth_percent := 100 }

/-- Member B of the spec's end-to-end scenario: java skills, 50 percent capacity. -/
def memberB : TeamMember := { name := "B", skills := ["java"], total_bandwidth_percent := 50 }

/-- The scenario project: priority 1, requires python, and
`estimated_duration_weeks = 5` so each synthetic phase-task gets
`5 * 8 = 40` hours, i.e. duration `max(1, int(40 / 20)) = 2` weeks. -/
def projAB : Project :=
  { name := "P1", priority := 1, budget := 100, required_skills := ["python"],
    estimated_duration_weeks := 5 }

/-- A lone member whose capacity (40) is below the fixed per-task bandwidth
(50), so every capacity check fails and every assignment is forced. -/
def member40 : TeamMember := { name := "C", skills := ["python"], total_bandwidth_percent := 40 }

/-- A member whose name is the empty string (falsy in Python). -/
def memberE : TeamMember := { name := "", skills := [], total_bandwidth_percent := 100 }

/-- A plain second member for the empty-name scenario. -/
def memberX : TeamMember := { name := "x", skills := [], total_bandwidth_percent := 100 }

/-- A no-skill project for the empty-name scenario. -/
def projE : Project :=
  { name := "PE", priority := 1, budget := 100, required_skills := [],
    estimated_duration_weeks := 5 }

/-- A deep-dive task whose phase label is not one of the five known phases. -/
def maintTask : Task :=
  { id := "m1", task_name := "M", required_skills := [], estimated_hours := 20,
    phase := "Maintenance" }

/-- A one-week Planning task. -/
def planTask : Task :=
  { id := "t1", task_name := "T1", required_skills := ["python"], estimated_hours := 20,
    phase := "Planning" }

/-- A one-week Design task. -/
def desTask : Task :=
  { id := "t2", task_name := "T2", required_skills := ["python"], estimated_hours := 20,
    phase := "Design" }

/-- A project with zero estimated duration, so each synthetic phase-task has
zero estimated hours. -/
def projZero : Project :=
  { name := "PZ", priority := 1, budget := 100, required_skills := [],
    estimated_duration_weeks := 0 }

/-- The Planning allocation emitted in the two-task deep-dive witness run. -/
def allocPlanW : ResourceAllocation :=
  { project := projAB, task := planTask, team_member := memberA, start_week := 0,
    end_week := 1, allocated_bandwidth := 50, estimated_cost := 20 * 50 }

/-- The Design allocation emitted in the two-task deep-dive witness run. -/
def allocDesW : ResourceAllocation :=
  { project := projAB, task := desTask, team_member := memberA, start_week := 1,
    end_week := 2, allocated_bandwidth := 50, estimated_cost := 20 * 50 }

/-! ## Lemmas on the week-dictionary primitives -/

theorem dictGet_dictSet (d : List (Nat × Nat)) (k v w : Nat) :
    dictGet (dictSet d k v) w = if k = w then v else dictGet d w := by
  induction d with
  | nil => by_cases h : k = w <;> simp [dictSet, dictGet, h]
  | cons kv rest ih =>
      obtain ⟨k0, v0⟩ := kv
      by_cases h0 : k0 = k
      · subst h0
        by_cases h : k0 = w <;> simp [dictSet, dictGet, h]
      · by_cases h : k0 = w
        · subst h
          have hk : ¬(k = k0) := fun hh => h0 hh.symm
          simp [dictSet, dictGet, h0, hk]
        · simp [dictSet, dictGet, h0, h, ih]

theorem dictGet_commitWeeks (dur : Nat) :
    ∀ (d : List (Nat × Nat)) (s bw w : Nat),
      dictGet (commitWeeks d s dur bw) w =
        dictGet d w + (if s ≤ w ∧ w < s + dur then bw else 0) := by
  induction dur with
  | zero => intro d s bw w; simp [commitWeeks]
  | succ n ih =>
      intro d s bw w
      rw [commitWeeks, ih, dictGet_dictSet]
      by_cases hsw : s = w
      · subst hsw
        have h1 : s ≤ s ∧ s < s + (n + 1) := by omega
        have h2 : ¬(s + 1 ≤ s ∧ s < s + 1 + n) := by omega
        simp [h1, h2]
      · have h3 : (s + 1 ≤ w ∧ w < s + 1 + n) ↔ (s ≤ w ∧ w < s + (n + 1)) := by omega
        simp [hsw, h3]

theorem canFit_eq_true_iff (dur : Nat) :
    ∀ (d : List (Nat × Nat)) (s bw cap : Nat),
      canFit d s dur bw cap = true ↔
        ∀ w, s ≤ w → w < s + dur → dictGet d w + bw ≤ cap := by
  induction dur with
  | zero => intro d s bw cap; simp [canFit]; intro w h1 h2; omega
  | succ n ih =>
      intro d s bw cap
      rw [canFit]
      simp only [Bool.and_eq_true, decide_eq_true_eq, ih]
      constructor
      · rintro ⟨h1, h2⟩ w hw1 hw2
        rcases Nat.eq_or_lt_of_le hw1 with h | h
        · exact h ▸ h1
        · exact h2 w h (by omega)
      · intro h
        exact ⟨h s (Nat.le_refl s) (by omega), fun w hw1 hw2 => h w (by omega) (by omega)⟩

theorem committedAt_append (A B : List ResourceAllocation) (n : String) (w : Nat) :
    committedAt (A ++ B) n w = committedAt A n w + committedAt B n w := by
  simp [committedAt]

theorem committedAt_single (a : ResourceAllocation) (n : String) (w : Nat) :
    committedAt [a] n w =
      if a.team_member.name = n ∧ a.start_week ≤ w ∧ w < a.end_week
      then a.allocated_bandwidth else 0 := by
  simp [committedAt]

/-! ## Lemmas on the stable insertion sort -/

theorem insertBefore_perm (before : α → α → Bool) (a : α) (l : List α) :
    (insertBefore before a l).Perm (a :: l) := by
  induction l with
  | nil => simp [insertBefore]
  | cons b rest ih =>
      by_cases h : before a b
      · simp [insertBefore, h]
      · simp only [insertBefore, h, if_neg, Bool.false_eq_true, if_false]
        exact (ih.cons b).trans (List.Perm.swap a b rest)

theorem foldl_insertBefore_perm (before : α → α → Bool) :
    ∀ (xs acc : List α),
      (xs.foldl (fun acc a => insertBefore before a acc) acc).Perm (acc ++ xs) := by
  intro xs
  induction xs with
  | nil => intro acc; simp
  | cons x xs ih =>
      intro acc
      rw [List.foldl_cons]
      have h1 := ih (insertBefore before x acc)
      have h2 : (insertBefore before x acc ++ xs).Perm ((x :: acc) ++ xs) :=
        (insertBefore_perm before x acc).append_right xs
      have h3 : ((x :: acc) ++ xs).Perm (acc ++ x :: xs) := (List.perm_middle).symm
      exact h1.trans (h2.trans h3)

theorem stableSortBy_perm (before : α → α → Bool) (xs : List α) :
    (stableSortBy before xs).Perm xs := by
  simpa [stableSortBy] using foldl_insertBefore_perm before xs []

theorem mem_stableSortBy (before : α → α → Bool) (xs : List α) (a : α) :
    a ∈ stableSortBy before xs ↔ a ∈ xs :=
  (stableSortBy_perm before xs).mem_iff

theorem mem_sortDescBy (key : α → ℚ) (xs : List α) (a : α) :
    a ∈ sortDescBy key xs ↔ a ∈ xs :=
  mem_stableSortBy _ xs a

theorem pairwise_insertBefore (key : α → ℚ) (a : α) (l : List α)
    (h : l.Pairwise (fun x y => key y ≤ key x)) :
    (insertBefore (fun x y => decide (key y < key x)) a l).Pairwise
      (fun x y => key y ≤ key x) := by
  induction l with
  | nil => simp [insertBefore]
  | cons b rest ih =>
      by_cases hb : key b < key a
      · simp only [insertBefore, decide_eq_true_eq, if_pos hb]
        refine List.Pairwise.cons ?_ h
        intro y hy
        rcases List.mem_cons.mp hy with hy | hy
        · exact hy ▸ le_of_lt hb
        · exact le_trans ((List.rel_of_pairwise_cons h) hy) (le_of_lt hb)
      · have hcond : ¬(decide (key b < key a) = true) := by simpa using hb
        simp only [insertBefore, if_neg hcond]
        refine List.Pairwise.cons ?_ (ih (List.Pairwise.of_cons h))
        intro y hy
        have hmem : y ∈ a :: rest :=
          ((insertBefore_perm (fun x y => decide (key y < key x)) a rest).mem_iff).mp hy
        rcases List.mem_cons.mp hmem with hy' | hy'
        · exact hy' ▸ le_of_not_lt hb
        · exact (List.rel_of_pairwise_cons h) hy'

theorem filter_insertBefore (key : α → ℚ) (v : ℚ) (a : α) (l : List α)
    (h : l.Pairwise (fun x y => key y ≤ key x)) :
    (insertBefore (fun x y => decide (key y < key x)) a l).filter
        (fun x => decide (key x = v)) =
      if key a = v then l.filter (fun x => decide (key x = v)) ++ [a]
      else l.filter (fun x => decide (key x = v)) := by
  induction l with
  | nil => by_cases hv : key a = v <;> simp [insertBefore, hv]
  | cons b rest ih =>
      by_cases hb : key b < key a
      · simp only [insertBefore, decide_eq_true_eq, if_pos hb]
        by_cases hv : key a = v
        · have hnone : ∀ x ∈ b :: rest, ¬(key x = v) := by
            intro x hx hxv
            rcases List.mem_cons.mp hx with hx' | hx'
            · subst hx'; exact absurd (hxv.trans hv.symm) (ne_of_lt hb)
            · have hle : key x ≤ key b := (List.rel_of_pairwise_cons h) hx'
              have : key x < key a := lt_of_le_of_lt hle hb
              exact absurd (hxv.trans hv.symm) (ne_of_lt this)
          have hempty : (b :: rest).filter (fun x => decide (key x = v)) = [] := by
            apply List.filter_eq_nil_iff.mpr
            intro x hx
            simpa using hnone x hx
          simp [hv, hempty]
        · rw [List.filter_cons]
          simp [hv]
      · have hcond : ¬(decide (key b < key a) = true) := by simpa using hb
        simp only [insertBefore, if_neg hcond]
        rw [List.filter_cons, List.filter_cons]
        rw [ih (List.Pairwise.of_cons h)]
        by_cases hv : key a = v <;> by_cases hbv : key b = v <;>
          simp [hv, hbv]

theorem sortDescBy_pairwise (key : α → ℚ) (xs : List α) :
    (sortDescBy key xs).Pairwise (fun x y => key y ≤ key x) := by
  have haux : ∀ (l acc : List α), acc.Pairwise (fun x y => key y ≤ key x) →
      (l.foldl (fun acc a => insertBefore (fun x y => decide (key y < key x)) a acc)
        acc).Pairwise (fun x y => key y ≤ key x) := by
    intro l
    induction l with
    | nil => intro acc h; exact h
    | cons x xs ih =>
        intro acc h
        rw [List.foldl_cons]
        exact ih _ (pairwise_insertBefore key x acc h)
  exact haux xs [] List.Pairwise.nil

theorem sortDescBy_filter (key : α → ℚ) (xs : List α) (v : ℚ) :
    (sortDescBy key xs).filter (fun x => decide (key x = v)) =
      xs.filter (fun x => decide (key x = v)) := by
  have haux : ∀ (l acc : List α), acc.Pairwise (fun x y => key y ≤ key x) →
      (l.foldl (fun acc a => insertBefore (fun x y => decide (key y < key x)) a acc)
          acc).filter (fun x => decide (key x = v)) =
        acc.filter (fun x => decide (key x = v)) ++ l.filter (fun x => decide (key x = v)) := by
    intro l
    induction l with
    | nil => intro acc h; simp
    | cons x xs ih =>
        intro acc h
        rw [List.foldl_cons, ih _ (pairwise_insertBefore key x acc h),
          filter_insertBefore key v x acc h, List.filter_cons]
        by_cases hv : key x = v
        · simp [hv, List.append_assoc]
        · simp [hv]
  exact haux xs [] List.Pairwise.nil

/-! ## Generic loop-invariant lemmas -/

theorem foldl_invariant {f : β → α → β} {P : β → Prop}
    (hstep : ∀ st x, P st → P (f st x)) :
    ∀ (l : List α) (st : β), P st → P (l.foldl f st) := by
  intro l
  induction l with
  | nil => intro st h; exact h
  | cons x xs ih => intro st h; exact ih (f st x) (hstep st x h)

theorem getD_mem_of_lt : ∀ {l : List α} {n : Nat} {d : α}, n < l.length → l.getD n d ∈ l
  | a :: _, 0, _, _ => List.mem_cons_self a _
  | _ :: l, n + 1, d, h =>
      List.mem_cons_of_mem _ (getD_mem_of_lt (by simpa using h))

theorem scanl_invariant {f : β → α → β} {P : β → Prop}
    (hstep : ∀ st x, P st → P (f st x)) :
    ∀ (l : List α) (st : β), P st → ∀ s ∈ List.scanl f st l, P s := by
  intro l
  induction l with
  | nil => intro st h s hs; simp [List.scanl] at hs; exact hs ▸ h
  | cons x xs ih =>
      intro st h s hs
      simp only [List.scanl, List.mem_cons] at hs
      rcases hs with hs | hs
      · exact hs ▸ h
      · exact ih (f st x) (hstep st x h) s hs

/-! ## Membership lemmas for the candidate lists -/

theorem portfolioCandidates_member {team : List TeamMember} {st : PortfolioState} {task : Task}
    {c : Candidate} (hc : c ∈ portfolioCandidates team st task) : c.member ∈ team := by
  simp only [portfolioCandidates, List.mem_map] at hc
  obtain ⟨m, hm, rfl⟩ := hc
  exact hm

theorem ddCandidates_member {team : List TeamMember} {core : LedgerState} {task : Task}
    {c : ℚ × ℚ × ℚ × TeamMember} (hc : c ∈ ddCandidates team core task) : c.2.2.2 ∈ team := by
  simp only [ddCandidates, List.mem_map] at hc
  obtain ⟨m, hm, rfl⟩ := hc
  exact hm

theorem name_inj {team : List TeamMember} (hnd : (team.map (fun m => m.name)).Nodup)
    {m1 m2 : TeamMember} (h1 : m1 ∈ team) (h2 : m2 ∈ team) (h : m1.name = m2.name) :
    m1 = m2 :=
  List.inj_on_of_nodup_map hnd h1 h2 h

/-! ## Preservation of the ledger invariant -/

theorem noForcedCover_of_append {A B : List (ResourceAllocation × Bool)} {n : String} {w : Nat}
    (h : noForcedCover (A ++ B) n w) : noForcedCover A n w := by
  intro af haf
  exact h af (List.mem_append_left B haf)

theorem ledgerInv_init (team : List TeamMember) : LedgerInv team initLedger := by
  constructor
  · intro n w; simp [initLedger, dictGet, committedAt]
  · intro m _ w _; simp [initLedger, dictGet]

theorem strUpdate_same (f : String → α) (k : String) (v : α) : strUpdate f k v k = v := by
  simp [strUpdate]

theorem strUpdate_ne (f : String → α) (k : String) (v : α) {n : String} (h : n ≠ k) :
    strUpdate f k v n = f n := by
  simp [strUpdate, h]

theorem ledgerInv_coreCommit {team : List TeamMember}
    (hnd : (team.map (fun m => m.name)).Nodup) (st : LedgerState)
    (project : Project) (task : Task) {member : TeamMember} (hm : member ∈ team)
    (s dur bw : Nat) (forced : Bool)
    (hok : forced = true ∨
      canFit (st.bandwidth_tracker member.name) s dur bw member.total_bandwidth_percent = true)
    (hinv : LedgerInv team st) :
    LedgerInv team (coreCommit st project task member s dur bw forced) := by
  obtain ⟨h1, h2⟩ := hinv
  constructor
  · intro n w
    simp only [coreCommit, List.map_append, List.map_cons, List.map_nil, committedAt_append]
    by_cases hn : n = member.name
    · subst hn
      rw [strUpdate_same, dictGet_commitWeeks, h1, committedAt_single]
      by_cases hw : s ≤ w ∧ w < s + dur
      · simp [hw]
      · simp [hw]
    · rw [strUpdate_ne _ _ _ hn, committedAt_single, h1]
      have hn' : ¬(member.name = n) := fun hh => hn hh.symm
      simp [hn']
  · intro m hm' w hnf
    simp only [coreCommit] at hnf ⊢
    by_cases hn : m.name = member.name
    · have hmm : m = member := name_inj hnd hm' hm hn
      subst hmm
      rw [strUpdate_same, dictGet_commitWeeks]
      by_cases hw : s ≤ w ∧ w < s + dur
      · rcases hok with hforced | hcan
        · exfalso
          subst hforced
          exact (hnf _ (List.mem_append_right st.allocations (List.mem_cons_self _ _))
            rfl rfl) hw
        · have := (canFit_eq_true_iff dur (st.bandwidth_tracker m.name) s bw
            m.total_bandwidth_percent).mp hcan w hw.1 hw.2
          simpa [hw] using this
      · rw [if_neg hw, Nat.add_zero]
        exact h2 m hm' w (noForcedCover_of_append hnf)
    · rw [strUpdate_ne _ _ _ hn]
      exact h2 m hm' w (noForcedCover_of_append hnf)

theorem ledgerInv_portfolioStep {team : List TeamMember}
    (hnd : (team.map (fun m => m.name)).Nodup) (pt : Project × Task) (st : PortfolioState)
    (h : LedgerInv team st.core) : LedgerInv team (portfolioStep team st pt).core := by
  rw [portfolioStep]
  split
  · rename_i c heq
    have hcan := List.find?_some heq
    have hmem : c.member ∈ team := portfolioCandidates_member
      ((mem_sortDescBy _ _ _).mp (List.mem_of_find?_eq_some heq))
    exact ledgerInv_coreCommit hnd st.core pt.1 pt.2 hmem _ _ 50 false (Or.inr hcan) h
  · split
    · exact h
    · rename_i c rest heq
      have hmem : c.member ∈ team := portfolioCandidates_member
        ((mem_sortDescBy _ _ _).mp (heq ▸ List.mem_cons_self c rest))
      exact ledgerInv_coreCommit hnd st.core pt.1 pt.2 hmem _ _ 50 true (Or.inl rfl) h

theorem ledgerInv_ddTaskStep {team : List TeamMember}
    (hnd : (team.map (fun m => m.name)).Nodup) (project : Project) (ps : Nat)
    (st : LedgerState × Nat) (task : Task) (h : LedgerInv team st.1) :
    LedgerInv team (ddTaskStep team project ps st task).1 := by
  rw [ddTaskStep]
  split
  · rename_i c heq
    have hcan := List.find?_some heq
    have hmem : c.2.2.2 ∈ team := ddCandidates_member
      ((mem_sortDescBy _ _ _).mp (List.mem_of_find?_eq_some heq))
    exact ledgerInv_coreCommit hnd st.1 project task hmem _ _ 50 false (Or.inr hcan) h
  · split
    · exact h
    · rename_i c rest heq
      have hmem : c.2.2.2 ∈ team := ddCandidates_member
        ((mem_sortDescBy _ _ _).mp (heq ▸ List.mem_cons_self c rest))
      exact ledgerInv_coreCommit hnd st.1 project task hmem _ _ 50 true (Or.inl rfl) h

theorem ledgerInv_raiseCursors {team : List TeamMember} {rteam : List TeamMember} {ps : Nat}
    {st : LedgerState} (h : LedgerInv team st) : LedgerInv team (raiseCursors rteam ps st) := by
  obtain ⟨h1, h2⟩ := h
  exact ⟨fun n w => h1 n w, fun m hm w hnf => h2 m hm w hnf⟩

theorem ledgerInv_ddPhaseStep {team : List TeamMember}
    (hnd : (team.map (fun m => m.name)).Nodup) (project : Project)
    (buckets : String → List Task) (prev : Option String) (phase : String)
    (st : DeepDiveState) (h : LedgerInv team st.core) :
    LedgerInv team (ddPhaseStep team project buckets prev phase st).core := by
  rw [ddPhaseStep]
  split
  · exact h
  · exact foldl_invariant (f := ddTaskStep team project (phaseStartOf prev st))
      (P := fun p => LedgerInv team p.1)
      (fun p t hp => ledgerInv_ddTaskStep hnd project (phaseStartOf prev st) p t hp)
      (buckets phase) _ (ledgerInv_raiseCursors h)

theorem ledgerInv_ddPhases {team : List TeamMember}
    (hnd : (team.map (fun m => m.name)).Nodup) (project : Project)
    (buckets : String → List Task) :
    ∀ (phs : List String) (prev : Option String) (st : DeepDiveState),
      LedgerInv team st.core → LedgerInv team (ddPhases team project buckets phs prev st).core := by
  intro phs
  induction phs with
  | nil => intro prev st h; exact h
  | cons ph rest ih =>
      intro prev st h
      exact ih (some ph) _ (ledgerInv_ddPhaseStep hnd project buckets prev ph st h)

theorem ledgerInv_portfolioRunAux {team : List TeamMember}
    (hnd : (team.map (fun m => m.name)).Nodup) (ids : Nat → String)
    (projects : List Project) :
    LedgerInv team (portfolioRunAux ids team projects).core := by
  refine foldl_invariant (P := fun st : PortfolioState => LedgerInv team st.core)
    (fun st pt hst => ledgerInv_portfolioStep hnd pt st hst) _ _ ?_
  exact ledgerInv_init team

theorem ledgerInv_allocate_tasks_aux {team : List TeamMember}
    (hnd : (team.map (fun m => m.name)).Nodup) (project : Project) (tasks : List Task) :
    LedgerInv team (allocate_tasks_aux team project tasks).core := by
  exact ledgerInv_ddPhases hnd project _ phaseOrder none _ (ledgerInv_init team)

/-! ## Every processed task emits exactly one allocation -/

theorem sortDescBy_ne_nil {key : α → ℚ} {xs : List α} (hne : xs ≠ []) :
    sortDescBy key xs ≠ [] := by
  intro hnil
  have hlen := (stableSortBy_perm (fun a b => decide (key b < key a)) xs).length_eq
  rw [show stableSortBy (fun a b => decide (key b < key a)) xs = sortDescBy key xs from rfl,
    hnil] at hlen
  exact hne (List.eq_nil_of_length_eq_zero hlen.symm)

theorem portfolioCandidates_ne_nil {team : List TeamMember} (hne : team ≠ [])
    (st : PortfolioState) (task : Task) : portfolioCandidates team st task ≠ [] := by
  simp [portfolioCandidates, hne]

theorem ddCandidates_ne_nil {team : List TeamMember} (hne : team ≠ [])
    (core : LedgerState) (task : Task) : ddCandidates team core task ≠ [] := by
  simp [ddCandidates, hne]

theorem portfolioStep_allocations {team : List TeamMember} (hne : team ≠ [])
    (st : PortfolioState) (pt : Project × Task) :
    ∃ a f, (portfolioStep team st pt).core.allocations = st.core.allocations ++ [(a, f)] ∧
      a.task = pt.2 ∧ a.project = pt.1 := by
  rw [portfolioStep]
  split
  · exact ⟨_, _, rfl, rfl, rfl⟩
  · split
    · rename_i heq
      exact absurd heq (sortDescBy_ne_nil (portfolioCandidates_ne_nil hne st pt.2))
    · exact ⟨_, _, rfl, rfl, rfl⟩

theorem portfolioFold_tasks {team : List TeamMember} (hne : team ≠ []) :
    ∀ (stream : List (Project × Task)) (st : PortfolioState),
      ((stream.foldl (portfolioStep team) st).core.allocations).map (fun af => af.1.task) =
        (st.core.allocations).map (fun af => af.1.task) ++ stream.map (fun pt => pt.2) := by
  intro stream
  induction stream with
  | nil => intro st; simp
  | cons pt rest ih =>
      intro st
      rw [List.foldl_cons, ih]
      obtain ⟨a, f, heq, htask, _⟩ := portfolioStep_allocations hne st pt
      rw [heq]
      simp [htask]

theorem allocate_resources_tasks {team : List TeamMember} (hne : team ≠ [])
    (ids : Nat → String) (projects : List Project) :
    (allocate_resources ids team projects).map (fun a => a.task) =
      (portfolioTaskStream ids projects).map (fun pt => pt.2) := by
  have := portfolioFold_tasks hne (portfolioTaskStream ids projects) portfolioInit
  simp only [portfolioInit, initLedger, List.map_nil, List.nil_append] at this
  simpa [allocate_resources, portfolioRunAux, portfolioInit, initLedger] using this

theorem ddTaskStep_allocations {team : List TeamMember} (hne : team ≠ [])
    (project : Project) (ps : Nat) (st : LedgerState × Nat) (task : Task) :
    ∃ a f, (ddTaskStep team project ps st task).1.allocations = st.1.allocations ++ [(a, f)] ∧
      a.task = task := by
  rw [ddTaskStep]
  split
  · exact ⟨_, _, rfl, rfl⟩
  · split
    · rename_i heq
      exact absurd heq (sortDescBy_ne_nil (ddCandidates_ne_nil hne st.1 task))
    · exact ⟨_, _, rfl, rfl⟩

/-- Summary of one deep-dive task step used for phase ordering: the running
phase max-end only grows, and any newly emitted allocation carries the task,
starts no earlier than the phase start, and ends no later than the new
phase max-end. -/
theorem ddTaskStep_summary (team : List TeamMember) (project : Project) (ps : Nat)
    (st : LedgerState × Nat) (task : Task) :
    st.2 ≤ (ddTaskStep team project ps st task).2 ∧
    ∃ N, (ddTaskStep team project ps st task).1.allocations = st.1.allocations ++ N ∧
      ∀ af ∈ N, af.1.task = task ∧ ps ≤ af.1.start_week ∧
        af.1.end_week ≤ (ddTaskStep team project ps st task).2 := by
  rw [ddTaskStep]
  split
  · refine ⟨Nat.le_max_left _ _, [_], rfl, ?_⟩
    intro af haf
    rcases List.mem_singleton.mp haf with rfl
    exact ⟨rfl, Nat.le_max_left _ _, Nat.le_max_right _ _⟩
  · split
    · exact ⟨Nat.le_refl _, [], by simp, by simp⟩
    · refine ⟨Nat.le_max_left _ _, [_], rfl, ?_⟩
      intro af haf
      rcases List.mem_singleton.mp haf with rfl
      exact ⟨rfl, Nat.le_max_left _ _, Nat.le_max_right _ _⟩

theorem ddPhaseTasks_summary (team : List TeamMember) (project : Project) (ps : Nat) :
    ∀ (tasks : List Task) (st : LedgerState × Nat),
      st.2 ≤ (tasks.foldl (ddTaskStep team project ps) st).2 ∧
      ∃ N, (tasks.foldl (ddTaskStep team project ps) st).1.allocations =
          st.1.allocations ++ N ∧
        ∀ af ∈ N, af.1.task ∈ tasks ∧ ps ≤ af.1.start_week ∧
          af.1.end_week ≤ (tasks.foldl (ddTaskStep team project ps) st).2 := by
  intro tasks
  induction tasks with
  | nil => intro st; exact ⟨Nat.le_refl _, [], by simp, by simp⟩
  | cons t ts ih =>
      intro st
      rw [List.foldl_cons]
      obtain ⟨hmono1, N1, heq1, hN1⟩ := ddTaskStep_summary team project ps st t
      obtain ⟨hmono2, N2, heq2, hN2⟩ := ih (ddTaskStep team project ps st t)
      refine ⟨le_trans hmono1 hmono2, N1 ++ N2, ?_, ?_⟩
      · rw [heq2, heq1, List.append_assoc]
      · intro af haf
        rcases List.mem_append.mp haf with haf | haf
        · obtain ⟨ht, hs, he⟩ := hN1 af haf
          exact ⟨ht ▸ List.mem_cons_self t ts, hs, le_trans he hmono2⟩
        · obtain ⟨ht, hs, he⟩ := hN2 af haf
          exact ⟨List.mem_cons_of_mem t ht, hs, he⟩

theorem ddPhaseTasks_map {team : List TeamMember} (hne : team ≠ [])
    (project : Project) (ps : Nat) :
    ∀ (tasks : List Task) (st : LedgerState × Nat),
      ((tasks.foldl (ddTaskStep team project ps) st).1.allocations).map (fun af => af.1.task) =
        (st.1.allocations).map (fun af => af.1.task) ++ tasks := by
  intro tasks
  induction tasks with
  | nil => intro st; simp
  | cons t ts ih =>
      intro st
      rw [List.foldl_cons, ih]
      obtain ⟨a, f, heq, htask⟩ := ddTaskStep_allocations hne project ps st t
      rw [heq]
      simp [htask]

theorem ddPhaseStep_map {team : List TeamMember} (hne : team ≠ [])
    (project : Project) (buckets : String → List Task) (prev : Option String)
    (phase : String) (st : DeepDiveState) :
    ((ddPhaseStep team project buckets prev phase st).core.allocations).map
        (fun af => af.1.task) =
      (st.core.allocations).map (fun af => af.1.task) ++ buckets phase := by
  rw [ddPhaseStep]
  split
  · rename_i hempty
    simp [hempty]
  · exact ddPhaseTasks_map hne project (phaseStartOf prev st) (buckets phase) _

theorem ddPhases_map {team : List TeamMember} (hne : team ≠ [])
    (project : Project) (buckets : String → List Task) :
    ∀ (phs : List String) (prev : Option String) (st : DeepDiveState),
      ((ddPhases team project buckets phs prev st).core.allocations).map
          (fun af => af.1.task) =
        (st.core.allocations).map (fun af => af.1.task) ++ phs.flatMap buckets := by
  intro phs
  induction phs with
  | nil => intro prev st; simp [ddPhases]
  | cons ph rest ih =>
      intro prev st
      rw [ddPhases, ih, ddPhaseStep_map hne]
      simp [List.append_assoc]

/-- Summary of one deep-dive phase step: allocations grow by a block whose
tasks come from the phase's bucket, start no earlier than the phase start and
end no later than the recorded end of this phase; other phases' recorded ends
are untouched. -/
theorem ddPhaseStep_summary (team : List TeamMember) (project : Project)
    (buckets : String → List Task) (prev : Option String) (phase : String)
    (st : DeepDiveState) :
    ∃ N, (ddPhaseStep team project buckets prev phase st).core.allocations =
        st.core.allocations ++ N ∧
      (∀ af ∈ N, af.1.task ∈ buckets phase ∧ phaseStartOf prev st ≤ af.1.start_week ∧
        af.1.end_week ≤
          (ddPhaseStep team project buckets prev phase st).phase_end_weeks phase) ∧
      ∀ q, q ≠ phase →
        (ddPhaseStep team project buckets prev phase st).phase_end_weeks q =
          st.phase_end_weeks q := by
  rw [ddPhaseStep]
  split
  · exact ⟨[], by simp, by simp, fun q _ => rfl⟩
  · obtain ⟨_, N, heq, hN⟩ := ddPhaseTasks_summary team project (phaseStartOf prev st)
      (buckets phase) (raiseCursors team (phaseStartOf prev st) st.core, phaseStartOf prev st)
    refine ⟨N, heq, ?_, ?_⟩
    · intro af haf
      obtain ⟨ht, hs, he⟩ := hN af haf
      exact ⟨ht, hs, by simpa [strUpdate_same] using he⟩
    · intro q hq
      simp only []
      exact strUpdate_ne _ _ _ hq

/-- The four adjacent phase pairs, spelled out. -/
theorem dd_five_phase_aux (team : List TeamMember) (project : Project)
    (B : String → List Task) (hphases : ∀ ph t, t ∈ B ph → t.phase = ph)
    (st0 st1 st2 st3 st4 st5 : DeepDiveState)
    (hempty : st0.core.allocations = [])
    (h1 : st1 = ddPhaseStep team project B none "Planning" st0)
    (h2 : st2 = ddPhaseStep team project B (some "Planning") "Design" st1)
    (h3 : st3 = ddPhaseStep team project B (some "Design") "Development" st2)
    (h4 : st4 = ddPhaseStep team project B (some "Development") "Testing" st3)
    (h5 : st5 = ddPhaseStep team project B (some "Testing") "Deployment" st4) :
    ∀ pp ph : String, (pp, ph) ∈ phaseOrder.zip phaseOrder.tail →
      ∀ af ∈ st5.core.allocations, ∀ bf ∈ st5.core.allocations,
        af.1.task.phase = ph → bf.1.task.phase = pp →
          bf.1.end_week ≤ af.1.start_week := by
  obtain ⟨N1, e1, hN1, hp1⟩ := ddPhaseStep_summary team project B none "Planning" st0
  obtain ⟨N2, e2, hN2, hp2⟩ := ddPhaseStep_summary team project B (some "Planning") "Design" st1
  obtain ⟨N3, e3, hN3, hp3⟩ :=
    ddPhaseStep_summary team project B (some "Design") "Development" st2
  obtain ⟨N4, e4, hN4, hp4⟩ :=
    ddPhaseStep_summary team project B (some "Development") "Testing" st3
  obtain ⟨N5, e5, hN5, hp5⟩ :=
    ddPhaseStep_summary team project B (some "Testing") "Deployment" st4
  rw [← h1] at e1 hN1 hp1
  rw [← h2] at e2 hN2 hp2
  rw [← h3] at e3 hN3 hp3
  rw [← h4] at e4 hN4 hp4
  rw [← h5] at e5 hN5 hp5
  have hsplit : ∀ af ∈ st5.core.allocations,
      af ∈ N1 ∨ af ∈ N2 ∨ af ∈ N3 ∨ af ∈ N4 ∨ af ∈ N5 := by
    intro af haf
    rw [e5, e4, e3, e2, e1, hempty] at haf
    simp only [List.nil_append, List.mem_append] at haf
    tauto
  have hph1 : ∀ af ∈ N1, af.1.task.phase = "Planning" :=
    fun af h => hphases _ _ (hN1 af h).1
  have hph2 : ∀ af ∈ N2, af.1.task.phase = "Design" :=
    fun af h => hphases _ _ (hN2 af h).1
  have hph3 : ∀ af ∈ N3, af.1.task.phase = "Development" :=
    fun af h => hphases _ _ (hN3 af h).1
  have hph4 : ∀ af ∈ N4, af.1.task.phase = "Testing" :=
    fun af h => hphases _ _ (hN4 af h).1
  have hph5 : ∀ af ∈ N5, af.1.task.phase = "Deployment" :=
    fun af h => hphases _ _ (hN5 af h).1
  have hloc : ∀ af ∈ st5.core.allocations, ∀ p : String, af.1.task.phase = p →
      (p = "Planning" → af ∈ N1) ∧ (p = "Design" → af ∈ N2) ∧
      (p = "Development" → af ∈ N3) ∧ (p = "Testing" → af ∈ N4) ∧
      (p = "Deployment" → af ∈ N5) := by
    intro af haf p hp
    rcases hsplit af haf with h | h | h | h | h
    · have := hph1 af h
      rw [this] at hp
      refine ⟨fun _ => h, ?_, ?_, ?_, ?_⟩ <;> (intro hc; rw [← hp] at hc; exact absurd hc (by decide))
    · have := hph2 af h
      rw [this] at hp
      refine ⟨?_, fun _ => h, ?_, ?_, ?_⟩ <;> (intro hc; rw [← hp] at hc; exact absurd hc (by decide))
    · have := hph3 af h
      rw [this] at hp
      refine ⟨?_, ?_, fun _ => h, ?_, ?_⟩ <;> (intro hc; rw [← hp] at hc; exact absurd hc (by decide))
    · have := hph4 af h
      rw [this] at hp
      refine ⟨?_, ?_, ?_, fun _ => h, ?_⟩ <;> (intro hc; rw [← hp] at hc; exact absurd hc (by decide))
    · have := hph5 af h
      rw [this] at hp
      refine ⟨?_, ?_, ?_, ?_, fun _ => h⟩ <;> (intro hc; rw [← hp] at hc; exact absurd hc (by decide))
  intro pp ph hadj af haf bf hbf hpa hpb
  have hadj' : (pp, ph) = ("Planning", "Design") ∨ (pp, ph) = ("Design", "Development") ∨
      (pp, ph) = ("Development", "Testing") ∨ (pp, ph) = ("Testing", "Deployment") := by
    simpa [phaseOrder] using hadj
  rcases hadj' with h | h | h | h <;>
    (injection h with hpp hph; subst hpp; subst hph)
  · have hb : bf ∈ N1 := ((hloc bf hbf _ hpb).1) rfl
    have ha : af ∈ N2 := ((hloc af haf _ hpa).2.1) rfl
    exact le_trans (hN1 bf hb).2.2 (hN2 af ha).2.1
  · have hb : bf ∈ N2 := ((hloc bf hbf _ hpb).2.1) rfl
    have ha : af ∈ N3 := ((hloc af haf _ hpa).2.2.1) rfl
    exact le_trans (hN2 bf hb).2.2 (hN3 af ha).2.1
  · have hb : bf ∈ N3 := ((hloc bf hbf _ hpb).2.2.1) rfl
    have ha : af ∈ N4 := ((hloc af haf _ hpa).2.2.2.1) rfl
    exact le_trans (hN3 bf hb).2.2 (hN4 af ha).2.1
  · have hb : bf ∈ N4 := ((hloc bf hbf _ hpb).2.2.2.1) rfl
    have ha : af ∈ N5 := ((hloc af haf _ hpa).2.2.2.2) rfl
    exact le_trans (hN4 bf hb).2.2 (hN5 af ha).2.1

theorem allocate_tasks_tasks {team : List TeamMember} (hne : team ≠ [])
    (project : Project) (tasks : List Task) :
    (allocate_tasks team project tasks).map (fun a => a.task) =
      phaseOrder.flatMap (fun ph => tasks.filter (fun t => decide (t.phase = ph))) := by
  have := ddPhases_map hne project
    (fun ph => tasks.filter (fun t => decide (t.phase = ph))) phaseOrder none
    { core := initLedger, phase_end_weeks := fun _ => 0 }
  simp only [initLedger, List.map_nil, List.nil_append] at this
  simpa [allocate_tasks, allocate_tasks_aux, initLedger] using this

/-! ## The consecutive-counter invariant (portfolio loop) -/

theorem consecInv_updateConsecutive {team : List TeamMember}
    (hEmpty : "" ∉ team.map (fun m => m.name))
    {consec : String → Nat} {last : Option String} {name : String}
    (hname : name ∈ team.map (fun m => m.name))
    (h1 : ∀ n, consec n ≠ 0 → last = some n)
    (h2 : ∀ l, last = some l → l ∈ team.map (fun m => m.name)) :
    (∀ n, (updateConsecutive consec last name).1 n ≠ 0 →
      (updateConsecutive consec last name).2 = some n) ∧
    (∀ l, (updateConsecutive consec last name).2 = some l →
      l ∈ team.map (fun m => m.name)) := by
  unfold updateConsecutive
  by_cases hl : last = some name
  · rw [if_pos hl]
    refine ⟨?_, ?_⟩
    · intro n hn
      dsimp only at hn ⊢
      by_cases hnn : n = name
      · simp [hnn]
      · rw [strUpdate_ne _ _ _ hnn] at hn
        have := h1 n hn
        rw [hl] at this
        exact absurd (Option.some.inj this).symm hnn
    · intro l hlq
      dsimp only at hlq
      simp only [Option.some.injEq] at hlq
      exact hlq ▸ hname
  · rw [if_neg hl]
    cases hcase : last with
    | none =>
        refine ⟨?_, ?_⟩
        · intro n hn
          dsimp only at hn ⊢
          by_cases hnn : n = name
          · simp [hnn]
          · rw [strUpdate_ne _ _ _ hnn] at hn
            have := h1 n hn
            rw [hcase] at this
            exact absurd this (by simp)
        · intro l hlq
          dsimp only at hlq
          simp only [Option.some.injEq] at hlq
          exact hlq ▸ hname
    | some l0 =>
        have hl0 : ¬(l0 = "") := by
          intro hc
          exact hEmpty (hc ▸ h2 l0 hcase)
        refine ⟨?_, ?_⟩
        · intro n hn
          dsimp only at hn ⊢
          rw [if_neg hl0] at hn
          by_cases hnn : n = name
          · simp [hnn]
          · exfalso
            rw [strUpdate_ne _ _ _ hnn] at hn
            by_cases hnl : n = l0
            · rw [hnl, strUpdate_same] at hn
              exact hn rfl
            · rw [strUpdate_ne _ _ _ hnl] at hn
              have := h1 n hn
              rw [hcase] at this
              exact hnl (Option.some.inj this).symm
        · intro l hlq
          dsimp only at hlq
          simp only [Option.some.injEq] at hlq
          exact hlq ▸ hname

theorem consecInv_portfolioAssign {team : List TeamMember}
    (hEmpty : "" ∉ team.map (fun m => m.name)) {st : PortfolioState} (pt : Project × Task)
    {member : TeamMember} (hname : member.name ∈ team.map (fun m => m.name)) (forced : Bool)
    (h : ConsecInv team st) : ConsecInv team (portfolioAssign st pt member forced) :=
  consecInv_updateConsecutive hEmpty hname h.1 h.2

theorem consecInv_portfolioStep {team : List TeamMember}
    (hEmpty : "" ∉ team.map (fun m => m.name)) (pt : Project × Task) (st : PortfolioState)
    (h : ConsecInv team st) : ConsecInv team (portfolioStep team st pt) := by
  rw [portfolioStep]
  split
  · rename_i c heq
    have hmem : c.member ∈ team := portfolioCandidates_member
      ((mem_sortDescBy _ _ _).mp (List.mem_of_find?_eq_some heq))
    exact consecInv_portfolioAssign hEmpty pt (List.mem_map_of_mem _ hmem) false h
  · split
    · exact h
    · rename_i c rest heq
      have hmem : c.member ∈ team := portfolioCandidates_member
        ((mem_sortDescBy _ _ _).mp (heq ▸ List.mem_cons_self c rest))
      exact consecInv_portfolioAssign hEmpty pt (List.mem_map_of_mem _ hmem) true h

theorem consecInv_init (team : List TeamMember) : ConsecInv team portfolioInit := by
  constructor
  · intro n hn
    exact absurd rfl hn
  · intro l hl
    exact absurd hl (by simp [portfolioInit])

/-! ## Empty-roster behaviour -/

theorem portfolioStep_empty_team (st : PortfolioState) (pt : Project × Task) :
    portfolioStep [] st pt = st := by
  rw [portfolioStep]
  split
  · rename_i c heq
    simp [portfolioCandidates, sortDescBy, stableSortBy] at heq
  · split
    · rfl
    · rename_i heq
      simp [portfolioCandidates, sortDescBy, stableSortBy] at heq

theorem allocate_resources_empty_team (ids : Nat → String) (projects : List Project) :
    allocate_resources ids [] projects = [] := by
  have hfold : ∀ (stream : List (Project × Task)) (st : PortfolioState),
      stream.foldl (portfolioStep []) st = st := by
    intro stream
    induction stream with
    | nil => intro st; rfl
    | cons pt rest ih => intro st; rw [List.foldl_cons, portfolioStep_empty_team]; exact ih st
  simp [allocate_resources, portfolioRunAux, hfold, portfolioInit, initLedger]

theorem ddTaskStep_empty_team (project : Project) (ps : Nat) (st : LedgerState × Nat)
    (task : Task) : ddTaskStep [] project ps st task = st := by
  rw [ddTaskStep]
  split
  · rename_i c heq
    simp [ddCandidates, sortDescBy, stableSortBy] at heq
  · split
    · rfl
    · rename_i heq
      simp [ddCandidates, sortDescBy, stableSortBy] at heq

theorem ddPhaseStep_empty_team_allocations (project : Project)
    (buckets : String → List Task) (prev : Option String) (phase : String)
    (st : DeepDiveState) :
    (ddPhaseStep [] project buckets prev phase st).core.allocations =
      st.core.allocations := by
  rw [ddPhaseStep]
  split
  · rfl
  · have hfold : ∀ (tasks : List Task) (p : LedgerState × Nat),
        tasks.foldl (ddTaskStep [] project (phaseStartOf prev st)) p = p := by
      intro tasks
      induction tasks with
      | nil => intro p; rfl
      | cons t ts ih =>
          intro p
          rw [List.foldl_cons, ddTaskStep_empty_team]
          exact ih p
    rw [hfold]
    rfl

theorem allocate_tasks_empty_team (project : Project) (tasks : List Task) :
    allocate_tasks [] project tasks = [] := by
  have hphases : ∀ (phs : List String) (prev : Option String) (st : DeepDiveState),
      (ddPhases [] project
        (fun ph => tasks.filter (fun t => decide (t.phase = ph))) phs prev st).core.allocations =
        st.core.allocations := by
    intro phs
    induction phs with
    | nil => intro prev st; rfl
    | cons ph rest ih =>
        intro prev st
        rw [ddPhases, ih, ddPhaseStep_empty_team_allocations]
  simp [allocate_tasks, allocate_tasks_aux, hphases, initLedger]

/-! ## Determinism up to the drawn task ids -/

theorem stripTaskId_required_skills {t1 t2 : Task} (h : stripTaskId t1 = stripTaskId t2) :
    t1.required_skills = t2.required_skills := by
  have := congrArg Task.required_skills h
  simpa [stripTaskId] using this

theorem stripTaskId_estimated_hours {t1 t2 : Task} (h : stripTaskId t1 = stripTaskId t2) :
    t1.estimated_hours = t2.estimated_hours := by
  have := congrArg Task.estimated_hours h
  simpa [stripTaskId] using this

theorem portfolioAssign_congr {st1 st2 : PortfolioState}
    (htr : st1.core.bandwidth_tracker = st2.core.bandwidth_tracker)
    (hew : st1.core.member_earliest_week = st2.core.member_earliest_week)
    (hct : st1.consecutive_tasks = st2.consecutive_tasks)
    (hla : st1.last_assigned_member = st2.last_assigned_member)
    (halloc : st1.core.allocations.map (fun af => (eraseTaskId af.1, af.2)) =
      st2.core.allocations.map (fun af => (eraseTaskId af.1, af.2)))
    (p : Project) {t1 t2 : Task} (ht : stripTaskId t1 = stripTaskId t2)
    (member : TeamMember) (forced : Bool) :
    EqUpToTaskIds (portfolioAssign st1 (p, t1) member forced)
      (portfolioAssign st2 (p, t2) member forced) := by
  have hhrs := stripTaskId_estimated_hours ht
  refine ⟨?_, ?_, ?_, ?_, ?_⟩
  · simp only [portfolioAssign, coreCommit]
    rw [htr, hew, hhrs]
  · simp only [portfolioAssign, coreCommit]
    rw [hew, hhrs]
  · simp only [portfolioAssign]
    rw [hct, hla]
  · simp only [portfolioAssign]
    rw [hct, hla]
  · simp only [portfolioAssign, coreCommit, List.map_append]
    rw [halloc, hew]
    simp only [List.map_cons, List.map_nil, eraseTaskId]
    rw [ht, hhrs]

theorem portfolioStep_congr (team : List TeamMember) {st1 st2 : PortfolioState}
    (h : EqUpToTaskIds st1 st2) (p : Project) {t1 t2 : Task}
    (ht : stripTaskId t1 = stripTaskId t2) :
    EqUpToTaskIds (portfolioStep team st1 (p, t1)) (portfolioStep team st2 (p, t2)) := by
  obtain ⟨htr, hew, hct, hla, halloc⟩ := h
  have hreq := stripTaskId_required_skills ht
  have hhrs := stripTaskId_estimated_hours ht
  have hcand : portfolioCandidates team st1 t1 = portfolioCandidates team st2 t2 := by
    simp only [portfolioCandidates, hreq, htr, hct]
  have hpred : (fun c : Candidate =>
      canFit (st1.core.bandwidth_tracker c.member.name)
        (st1.core.member_earliest_week c.member.name) (durationOf t1.estimated_hours) 50
        c.member.total_bandwidth_percent) = (fun c : Candidate =>
      canFit (st2.core.bandwidth_tracker c.member.name)
        (st2.core.member_earliest_week c.member.name) (durationOf t2.estimated_hours) 50
        c.member.total_bandwidth_percent) := by
    funext c
    rw [htr, hew, hhrs]
  rw [portfolioStep, portfolioStep]
  dsimp only
  rw [hcand, hpred]
  cases hfind : (sortDescBy Candidate.combined_score
      (portfolioCandidates team st2 t2)).find? (fun c : Candidate =>
        canFit (st2.core.bandwidth_tracker c.member.name)
          (st2.core.member_earliest_week c.member.name) (durationOf t2.estimated_hours) 50
          c.member.total_bandwidth_percent) with
  | some c => exact portfolioAssign_congr htr hew hct hla halloc p ht c.member false
  | none =>
      cases hranked : sortDescBy Candidate.combined_score
          (portfolioCandidates team st2 t2) with
      | nil => exact ⟨htr, hew, hct, hla, halloc⟩
      | cons c rest => exact portfolioAssign_congr htr hew hct hla halloc p ht c.member true

theorem create_portfolio_tasks_strip (f g : Nat → String) (p : Project) :
    ((create_portfolio_tasks f p).map fun t => (p, t)).map
        (fun pt => (pt.1, stripTaskId pt.2)) =
      ((create_portfolio_tasks g p).map fun t => (p, t)).map
        (fun pt => (pt.1, stripTaskId pt.2)) := by
  simp [create_portfolio_tasks, stripTaskId, List.map_map, Function.comp]

theorem stream_strip_aux (ids1 ids2 : Nat → String) :
    ∀ (l : List (Nat × Project)),
      (l.flatMap fun ip => ((create_portfolio_tasks (fun k => ids1 (5 * ip.1 + k)) ip.2).map
          fun t => (ip.2, t))).map (fun pt => (pt.1, stripTaskId pt.2)) =
      (l.flatMap fun ip => ((create_portfolio_tasks (fun k => ids2 (5 * ip.1 + k)) ip.2).map
          fun t => (ip.2, t))).map (fun pt => (pt.1, stripTaskId pt.2))
  | [] => rfl
  | ip :: rest => by
      simp only [List.flatMap_cons, List.map_append]
      rw [stream_strip_aux ids1 ids2 rest,
        create_portfolio_tasks_strip (fun k => ids1 (5 * ip.1 + k))
          (fun k => ids2 (5 * ip.1 + k)) ip.2]

theorem portfolioTaskStream_strip (ids1 ids2 : Nat → String) (projects : List Project) :
    (portfolioTaskStream ids1 projects).map (fun pt => (pt.1, stripTaskId pt.2)) =
      (portfolioTaskStream ids2 projects).map (fun pt => (pt.1, stripTaskId pt.2)) := by
  simp only [portfolioTaskStream]
  exact stream_strip_aux ids1 ids2 ((sortProjects projects).enum)

theorem portfolioFold_congr (team : List TeamMember) :
    ∀ (s1 s2 : List (Project × Task)) (st1 st2 : PortfolioState),
      s1.map (fun pt => (pt.1, stripTaskId pt.2)) =
        s2.map (fun pt => (pt.1, stripTaskId pt.2)) →
      EqUpToTaskIds st1 st2 →
      EqUpToTaskIds (s1.foldl (portfolioStep team) st1)
        (s2.foldl (portfolioStep team) st2) := by
  intro s1
  induction s1 with
  | nil =>
      intro s2 st1 st2 hmap h
      have hs2 : s2 = [] := List.map_eq_nil_iff.mp hmap.symm
      subst hs2
      exact h
  | cons pt rest ih =>
      intro s2 st1 st2 hmap h
      cases s2 with
      | nil => simp at hmap
      | cons qt rest2 =>
          obtain ⟨p1, t1⟩ := pt
          obtain ⟨q1, t2⟩ := qt
          simp only [List.map_cons, List.cons.injEq, Prod.mk.injEq] at hmap
          obtain ⟨⟨hp, hstrip⟩, htail⟩ := hmap
          subst hp
          rw [List.foldl_cons, List.foldl_cons]
          exact ih rest2 _ _ htail (portfolioStep_congr team h p1 hstrip)

theorem allocate_resources_erase (ids1 ids2 : Nat → String) (team : List TeamMember)
    (projects : List Project) :
    (allocate_resources ids1 team projects).map eraseTaskId =
      (allocate_resources ids2 team projects).map eraseTaskId := by
  have h := portfolioFold_congr team (portfolioTaskStream ids1 projects)
    (portfolioTaskStream ids2 projects) portfolioInit portfolioInit
    (portfolioTaskStream_strip ids1 ids2 projects) ⟨rfl, rfl, rfl, rfl, rfl⟩
  have halloc := h.2.2.2.2
  have hmapped := congrArg (List.map Prod.fst) halloc
  simpa [allocate_resources, portfolioRunAux, List.map_map, Function.comp] using hmapped

/-! ## Claim theorems -/

/-- C1 (counterexample): in the run with a lone member of capacity 40, every
allocation is produced by the fallback branch (instrumented flag `true`), yet
none of the emitted `ResourceAllocation` records carries an overallocation
marker — the record type has no such field, so the marker predicate is
constantly `false`. -/
theorem forced_allocations_unmarked_cex :
    (portfolioRunAux drawBlank [member40] [projAB]).core.allocations.map Prod.snd =
      [true, true, true, true, true] ∧
    (allocate_resources drawBlank [member40] [projAB]).map markedOverallocated =
      [false, false, false, false, false] := by
  constructor
  · with_unfolding_all decide
  · with_unfolding_all decide

/-- C1 (amended): the fallback path emits allocations that carry no
overallocation marker.  In the all-forced run every instrumented flag is
`true` while every emitted record is unmarked, and the ledger silently exceeds
the member's capacity in week 0. -/
theorem forced_allocations_unmarked :
    (∀ a : ResourceAllocation, markedOverallocated a = false) ∧
    (portfolioRunAux drawBlank [member40] [projAB]).core.allocations.map
        (fun af => (af.2, markedOverallocated af.1)) =
      [(true, false), (true, false), (true, false), (true, false), (true, false)] ∧
    member40.total_bandwidth_percent <
      committedAt (allocate_resources drawBlank [member40] [projAB]) member40.name 0 := by
  refine ⟨fun a => rfl, ?_, ?_⟩
  · with_unfolding_all decide
  · with_unfolding_all decide

/-- C2 (counterexample): with a lone member of capacity 40, no allocation in
the output is flagged as overallocated (no record ever is), yet the bandwidth
committed in week 0 is 50, exceeding the member's capacity of 40. -/
theorem capacity_exceeded_unflagged_cex :
    (allocate_resources drawBlank [member40] [projAB]).map markedOverallocated =
      [false, false, false, false, false] ∧
    member40.total_bandwidth_percent = 40 ∧
    committedAt (allocate_resources drawBlank [member40] [projAB]) member40.name 0 = 50 := by
  refine ⟨by with_unfolding_all decide, rfl, by with_unfolding_all decide⟩

/-- C2 (amended): for a roster with pairwise distinct member names, if no
fallback-branch allocation of a member covers a week, then the bandwidth
committed to that member in that week is at most their capacity — in both the
portfolio and the deep-dive run. -/
theorem capacity_invariant_unforced (team : List TeamMember)
    (hnd : (team.map (fun m => m.name)).Nodup) :
    (∀ (ids : Nat → String) (projects : List Project), ∀ m ∈ team, ∀ w : Nat,
      noForcedCover (portfolioRunAux ids team projects).core.allocations m.name w →
      committedAt (allocate_resources ids team projects) m.name w ≤
        m.total_bandwidth_percent) ∧
    (∀ (project : Project) (tasks : List Task), ∀ m ∈ team, ∀ w : Nat,
      noForcedCover (allocate_tasks_aux team project tasks).core.allocations m.name w →
      committedAt (allocate_tasks team project tasks) m.name w ≤
        m.total_bandwidth_percent) := by
  constructor
  · intro ids projects m hm w hnf
    obtain ⟨h1, h2⟩ := ledgerInv_portfolioRunAux hnd ids projects
    have := h2 m hm w hnf
    rw [h1] at this
    simpa [allocate_resources] using this
  · intro project tasks m hm w hnf
    obtain ⟨h1, h2⟩ := ledgerInv_allocate_tasks_aux hnd project tasks
    have := h2 m hm w hnf
    rw [h1] at this
    simpa [allocate_tasks] using this

/-- C2 (witness): the amended capacity invariant applied to the concrete
scenario run, week 0 of member A. -/
theorem capacity_invariant_unforced_witness :
    committedAt (allocate_resources drawBlank [memberA] [projAB]) memberA.name 0 ≤
      memberA.total_bandwidth_percent :=
  (capacity_invariant_unforced [memberA] (by decide)).1 drawBlank [projAB] memberA
    (List.mem_cons_self _ _) 0
    (by unfold noForcedCover; with_unfolding_all decide)

/-- C3 (counterexample): in the spec's end-to-end scenario the third processed
task (Development) is assigned to B, so B is selected and the claimed start
weeks (0,2,4,6,8) for A do not occur. -/
theorem endtoend_scenario_cex :
    (allocate_resources drawBlank [memberA, memberB] [projAB]).map (fun a => a.team_member.name) =
      ["A", "A", "B", "A", "A"] := by
  with_unfolding_all decide

/-- C3 (amended): the actual outcome of the scenario run: A receives Planning,
Design, Testing and Deployment with start weeks 0, 2, 4, 6, while B receives
the Development task at weeks 0-2 (B's workload score 0.7 beats A's 0.607 at
that point). -/
theorem endtoend_scenario_actual :
    (allocate_resources drawBlank [memberA, memberB] [projAB]).map
        (fun a => (a.task.phase, a.team_member.name, a.start_week, a.end_week)) =
      [("Planning", "A", 0, 2), ("Design", "A", 2, 4), ("Development", "B", 0, 2),
       ("Testing", "A", 4, 6), ("Deployment", "A", 6, 8)] := by
  with_unfolding_all decide

/-- C4 (counterexample): a deep-dive task whose phase label is not one of the
five known phases receives no allocation at all, even with a non-empty roster. -/
theorem unknown_phase_task_dropped_cex :
    allocate_tasks [memberA] projAB [maintTask] = [] := by
  with_unfolding_all decide

/-- C4 (amended): with a non-empty roster, the multiset of tasks referenced by
the output equals the processed task stream: in the portfolio run, the five
synthetic phase-tasks of every project in priority order; in the deep-dive
run, exactly the tasks whose phase label is one of the five known phases,
grouped in phase order — tasks with any other phase label are silently
dropped. -/
theorem every_processed_task_allocated_once (ids : Nat → String) (team : List TeamMember)
    (hne : team ≠ []) (projects : List Project) (project : Project) (tasks : List Task) :
    ((allocate_resources ids team projects).map (fun a => a.task) =
      (portfolioTaskStream ids projects).map (fun pt => pt.2)) ∧
    ((allocate_tasks team project tasks).map (fun a => a.task) =
      phaseOrder.flatMap (fun ph => tasks.filter (fun t => decide (t.phase = ph)))) :=
  ⟨allocate_resources_tasks hne ids projects, allocate_tasks_tasks hne project tasks⟩

/-- C4 (witness): the amended statement at the concrete scenario inputs. -/
theorem every_processed_task_allocated_once_witness :
    ((allocate_resources drawBlank [memberA] [projAB]).map (fun a => a.task) =
      (portfolioTaskStream drawBlank [projAB]).map (fun pt => pt.2)) ∧
    ((allocate_tasks [memberA] projAB [maintTask]).map (fun a => a.task) =
      phaseOrder.flatMap (fun ph => [maintTask].filter (fun t => decide (t.phase = ph)))) :=
  every_processed_task_allocated_once drawBlank [memberA] (by simp) [projAB] projAB [maintTask]

/-- C5 (confirmed): in the deep-dive run, for every adjacent phase pair
(k-1, k) of the fixed phase order, every allocation of phase k starts no
earlier than every allocation of phase k-1 ends. -/
theorem deepdive_phase_ordering (team : List TeamMember) (project : Project)
    (tasks : List Task) :
    ∀ pp ph : String, (pp, ph) ∈ phaseOrder.zip phaseOrder.tail →
      ∀ a ∈ allocate_tasks team project tasks, ∀ b ∈ allocate_tasks team project tasks,
        a.task.phase = ph → b.task.phase = pp → b.end_week ≤ a.start_week := by
  intro pp ph hadj a ha b hb hpa hpb
  simp only [allocate_tasks, List.mem_map] at ha hb
  obtain ⟨af, haf, rfl⟩ := ha
  obtain ⟨bf, hbf, rfl⟩ := hb
  exact dd_five_phase_aux team project
    (fun ph0 => tasks.filter (fun t => decide (t.phase = ph0)))
    (fun ph0 t ht => by simpa using (List.mem_filter.mp ht).2)
    { core := initLedger, phase_end_weeks := fun _ => 0 } _ _ _ _ _
    rfl rfl rfl rfl rfl rfl pp ph hadj af haf bf hbf hpa hpb

/-- C5 (witness): in the two-task run, the Design allocation (weeks 1-2)
starts exactly when the Planning allocation (weeks 0-1) ends. -/
theorem deepdive_phase_ordering_witness : allocPlanW.end_week ≤ allocDesW.start_week :=
  deepdive_phase_ordering [memberA] projAB [planTask, desTask] "Planning" "Design"
    (by decide) allocDesW (by with_unfolding_all decide) allocPlanW
    (by with_unfolding_all decide) rfl rfl

/-- C6 (confirmed): the consecutive-penalty sub-score equals
`1 - 0.15 * c` for streaks of at most 2, is pinned at exactly 0.5 for every
streak of 3 or more (including 10), and never drops below 0.5. -/
theorem consecutive_penalty_spec :
    (∀ c : Nat, c ≤ 2 → consecutiveScoreOf c = 1 - (c : ℚ) * (3/20)) ∧
    (∀ c : Nat, 3 ≤ c → consecutiveScoreOf c = 1/2) ∧
    (∀ c : Nat, (1/2 : ℚ) ≤ consecutiveScoreOf c) ∧
    consecutiveScoreOf 10 = 1/2 := by
  refine ⟨?_, ?_, ?_, ?_⟩
  · intro c hc
    have h3 : ¬(3 ≤ c) := by omega
    simp [consecutiveScoreOf, h3]
  · intro c hc
    simp [consecutiveScoreOf, hc]
  · intro c
    by_cases hc : 3 ≤ c
    · simp [consecutiveScoreOf, hc]
    · have hc2 : c ≤ 2 := by omega
      rw [consecutiveScoreOf, if_neg hc]
      interval_cases c <;> norm_num
  · simp [consecutiveScoreOf]

/-- C6 (witness): the two formulas evaluated at streaks 2 and 3. -/
theorem consecutive_penalty_spec_witness :
    consecutiveScoreOf 2 = 1 - (2 : ℚ) * (3/20) ∧ consecutiveScoreOf 3 = 1/2 :=
  ⟨consecutive_penalty_spec.1 2 (by norm_num), consecutive_penalty_spec.2.1 3 (by norm_num)⟩

/-- C7 (counterexample): with the duplicated required-skill list
`["python", "python"]` and a member who has every required skill, the skill
score is 1/2, not 1 — the set-intersection numerator deduplicates while the
denominator is the raw list length. -/
theorem skill_score_duplicate_cex :
    match_skills ["python", "python"] memberA = 1/2 ∧
    ["python", "python"] ⊆ memberA.skills ∧
    ¬ match_skills ["python", "python"] memberA = 1 := by
  refine ⟨by with_unfolding_all decide, by decide, by with_unfolding_all decide⟩

/-- C7 (amended): the skill score always lies in [0,1]; the defaults 0.5
(portfolio) and 0.3 (deep-dive) are returned exactly when the required list is
empty, and on non-empty lists the two scorers agree; the score equals 1 iff
the number of distinct required skills the member has equals the length of the
required list — which for duplicate-free lists is exactly the subset
condition. -/
theorem skill_score_spec :
    ∀ (required : List String) (member : TeamMember),
      (0 ≤ match_skills required member ∧ match_skills required member ≤ 1) ∧
      (required = [] → match_skills required member = 1/2 ∧
        dd_match_skills required member = 3/10) ∧
      (required ≠ [] → dd_match_skills required member = match_skills required member) ∧
      (required ≠ [] → (match_skills required member = 1 ↔
        (required.dedup.filter (fun s => decide (s ∈ member.skills))).length =
          required.length)) ∧
      (required ≠ [] → required.Nodup →
        (match_skills required member = 1 ↔ ∀ s ∈ required, s ∈ member.skills)) := by
  intro required member
  by_cases hreq : required = []
  · subst hreq
    refine ⟨⟨by norm_num [match_skills], by norm_num [match_skills]⟩,
      fun _ => ⟨rfl, rfl⟩, fun h => absurd rfl h, fun h => absurd rfl h,
      fun h => absurd rfl h⟩
  · have hlen : 0 < required.length := List.length_pos.mpr hreq
    have hle : (required.dedup.filter (fun s => decide (s ∈ member.skills))).length ≤
        required.length :=
      le_trans (List.length_filter_le _ _)
        (List.Sublist.length_le (List.dedup_sublist required))
    have hpos : (0:ℚ) < (required.length : ℚ) := by exact_mod_cast hlen
    refine ⟨⟨?_, ?_⟩, fun h => absurd h hreq, fun _ => ?_, fun _ => ?_, fun _ hnd => ?_⟩
    · rw [match_skills, if_neg hreq]
      positivity
    · rw [match_skills, if_neg hreq]
      refine div_le_one_of_le₀ ?_ (le_of_lt hpos)
      exact_mod_cast hle
    · rw [dd_match_skills, if_neg hreq, match_skills, if_neg hreq]
    · rw [match_skills, if_neg hreq, div_eq_one_iff_eq (ne_of_gt hpos)]
      exact Nat.cast_inj
    · rw [match_skills, if_neg hreq, div_eq_one_iff_eq (ne_of_gt hpos),
        List.dedup_eq_self.mpr hnd]
      constructor
      · intro h s hs
        have hcast : (required.filter (fun s => decide (s ∈ member.skills))).length =
            required.length := by exact_mod_cast h
        have heq := List.Sublist.eq_of_length (List.filter_sublist _) hcast
        have hall := List.filter_eq_self.mp heq
        simpa using hall s hs
      · intro h
        have heq : required.filter (fun s => decide (s ∈ member.skills)) = required :=
          List.filter_eq_self.mpr (fun a ha => by simpa using h a ha)
        rw [heq]

/-- C7 (witness): the amended statement applied to the single-skill list
`["python"]` and member A. -/
theorem skill_score_spec_witness :
    match_skills ["python"] memberA = 1 ↔ ∀ s ∈ ["python"], s ∈ memberA.skills :=
  (skill_score_spec ["python"] memberA).2.2.2.2 (by simp) (by simp)

/-- C8 (counterexample): with an empty roster both allocators silently return
the empty allocation list instead of reporting a precondition error — the
functions have no error channel at all. -/
theorem no_precondition_error_cex :
    allocate_resources drawBlank [] [projAB] = [] ∧ allocate_tasks [] projAB [planTask] = [] :=
  ⟨allocate_resources_empty_team drawBlank [projAB], allocate_tasks_empty_team projAB [planTask]⟩

/-- C8 (amended): the allocators perform no precondition validation: an empty
roster or an empty project list yields a silently empty allocation list, and a
task with zero estimated hours is silently allocated with the floored duration
of 1 week (`max(1, int(0/20)) = 1`). -/
theorem no_precondition_validation :
    (∀ (ids : Nat → String) (projects : List Project), allocate_resources ids [] projects = []) ∧
    (∀ (project : Project) (tasks : List Task), allocate_tasks [] project tasks = []) ∧
    (∀ (ids : Nat → String) (team : List TeamMember), allocate_resources ids team [] = []) ∧
    durationOf 0 = 1 ∧
    (allocate_resources drawBlank [memberA] [projZero]).map (fun a => (a.start_week, a.end_week)) =
      [(0, 1), (1, 2), (2, 3), (3, 4), (4, 5)] := by
  refine ⟨allocate_resources_empty_team, allocate_tasks_empty_team, fun ids team => rfl,
    by with_unfolding_all decide, by with_unfolding_all decide⟩

/-- C9 (counterexample): `_create_portfolio_tasks` constructs its `Task`
objects inside `allocate_resources`, each drawing a fresh uuid4-derived id
(`str(uuid.uuid4())[:8]`), so two runs on the identical roster and project
list whose draws differ return allocation lists that are not equal: the
embedded `task.id` values differ, so the output is not byte-identical across
runs on identical inputs. -/
theorem determinism_uuid_cex :
    ¬(allocate_resources drawA [memberA] [projAB] =
        allocate_resources drawB [memberA] [projAB]) ∧
    (allocate_resources drawA [memberA] [projAB]).map (fun a => a.task.id) =
      ["a", "a", "a", "a", "a"] ∧
    (allocate_resources drawB [memberA] [projAB]).map (fun a => a.task.id) =
      ["b", "b", "b", "b", "b"] := by
  refine ⟨by with_unfolding_all decide, by with_unfolding_all decide,
    by with_unfolding_all decide⟩

/-- C9 (amended): the portfolio run is deterministic only up to the uuid draws
of the tasks it creates internally: two runs on identical roster and project
lists yield allocation lists that agree after erasing the drawn `task.id`;
the deep-dive run, which constructs no tasks, is fully deterministic on
identical inputs. The candidate ranking is sorted in descending combined
score, and candidates with equal combined scores keep their original roster
order (the per-score filtration of the ranking equals that of the unsorted,
roster-ordered candidate list) — for both scorers. -/
theorem determinism_and_stable_ties :
    (∀ (ids1 ids2 : Nat → String) (team1 team2 : List TeamMember)
      (projects1 projects2 : List Project), team1 = team2 → projects1 = projects2 →
      (allocate_resources ids1 team1 projects1).map eraseTaskId =
        (allocate_resources ids2 team2 projects2).map eraseTaskId) ∧
    (∀ (team1 team2 : List TeamMember) (project1 project2 : Project)
      (tasks1 tasks2 : List Task), team1 = team2 → project1 = project2 → tasks1 = tasks2 →
      allocate_tasks team1 project1 tasks1 = allocate_tasks team2 project2 tasks2) ∧
    (∀ (team : List TeamMember) (st : PortfolioState) (task : Task),
      (sortDescBy Candidate.combined_score (portfolioCandidates team st task)).Pairwise
        (fun c d => d.combined_score ≤ c.combined_score)) ∧
    (∀ (team : List TeamMember) (st : PortfolioState) (task : Task) (v : ℚ),
      (sortDescBy Candidate.combined_score (portfolioCandidates team st task)).filter
          (fun c => decide (c.combined_score = v)) =
        (portfolioCandidates team st task).filter
          (fun c => decide (c.combined_score = v))) ∧
    (∀ (team : List TeamMember) (core : LedgerState) (task : Task) (v : ℚ),
      (sortDescBy (fun c => c.1) (ddCandidates team core task)).filter
          (fun c => decide (c.1 = v)) =
        (ddCandidates team core task).filter (fun c => decide (c.1 = v))) :=
  ⟨fun ids1 ids2 team1 team2 projects1 projects2 ht hp => by
      subst ht; subst hp; exact allocate_resources_erase ids1 ids2 team1 projects1,
    fun _ _ _ _ _ _ ht hp hk => by rw [ht, hp, hk],
    fun team st task => sortDescBy_pairwise _ _,
    fun team st task v => sortDescBy_filter _ _ v,
    fun team core task v => sortDescBy_filter _ _ v⟩

/-- C9 (witness): two scenario runs with genuinely different id draws agree
after erasing the drawn task ids. -/
theorem determinism_and_stable_ties_witness :
    (allocate_resources drawA [memberA] [projAB]).map eraseTaskId =
      (allocate_resources drawB [memberA] [projAB]).map eraseTaskId :=
  determinism_and_stable_ties.1 drawA drawB [memberA] [memberA] [projAB] [projAB] rfl rfl

/-- C10 (counterexample): with a member whose name is the empty string
(falsy in Python, so `if last_assigned_member:` skips the streak reset), the
state after the second assignment has two names with nonzero streak counters. -/
theorem consecutive_counter_empty_name_cex :
    (portfolioStates drawBlank [memberE, memberX] [projE]).length = 6 ∧
    (stateAt drawBlank [memberE, memberX] [projE] 2).consecutive_tasks "" = 1 ∧
    (stateAt drawBlank [memberE, memberX] [projE] 2).consecutive_tasks "x" = 1 ∧
    (stateAt drawBlank [memberE, memberX] [projE] 2).last_assigned_member = some "x" := by
  refine ⟨by with_unfolding_all decide, by with_unfolding_all decide,
    by with_unfolding_all decide, by with_unfolding_all decide⟩

/-- C10 (amended): provided no roster member has an empty name, at every point
of the portfolio run any name with a nonzero streak counter is exactly the
most recently assigned member (so at most one such name exists), and before
the first assignment every counter is zero. -/
theorem consecutive_counter_invariant (ids : Nat → String) (team : List TeamMember)
    (projects : List Project) (hEmpty : "" ∉ team.map (fun m => m.name)) :
    (∀ n, portfolioInit.consecutive_tasks n = 0) ∧
    (∀ st ∈ portfolioStates ids team projects, ∀ n,
      st.consecutive_tasks n ≠ 0 → st.last_assigned_member = some n) := by
  refine ⟨fun n => rfl, ?_⟩
  intro st hst
  exact (scanl_invariant (P := ConsecInv team)
    (fun s pt hs => consecInv_portfolioStep hEmpty pt s hs)
    (portfolioTaskStream ids projects) portfolioInit (consecInv_init team) st hst).1

/-- C10 (witness): after the first assignment of the scenario run, A's
counter is nonzero and A is indeed recorded as last assigned. -/
theorem consecutive_counter_invariant_witness :
    (stateAt drawBlank [memberA] [projAB] 1).last_assigned_member = some "A" :=
  (consecutive_counter_invariant drawBlank [memberA] [projAB] (by decide)).2
    (stateAt drawBlank [memberA] [projAB] 1)
    (getD_mem_of_lt (by with_unfolding_all decide)) "A"
    (by with_unfolding_all decide)

end MAS
